import Mathlib

/-!
Shallow embedding of `src/main.cpp` (CooperKozitza/ImageAnalysis).

An intensity field is a row-major buffer of samples (`index = y*width + x`);
we model the C++ `std::vector<float>` buffer as a `List ℚ` (exact arithmetic
in place of IEEE `float`) and `std::vector<unsigned char>` as `List ℕ`.
Machine-integer coordinates are `ℕ`; the C++ clamps `max(c-r,0)` coincide
with truncated `ℕ` subtraction `c - r`.
-/

namespace ImageAnalysis

/-- Pixel buffer of an intensity field, row-major. -/
abbrev Pixels := List ℚ

/-- Source constant `DENOISE_COUNT = 8`: number of dilation passes. -/
def DENOISE_COUNT : ℕ := 8

/-- Source constant `DENOISE_RAD = 9`: dilation window radius. -/
def DENOISE_RAD : ℕ := 9

/-- Source constant `BLUR_COUNT = 20`. -/
def BLUR_COUNT : ℕ := 20

/-- Source constant `BLUR_RAD = 3`: blur window radius. -/
def BLUR_RAD : ℕ := 3

/-- Source constant `CERTAINTY = 5`: half-width of the foreground band. -/
def CERTAINTY : ℕ := 5

/-- Source kernel `SOBEL_X = {{-1,0,1},{-2,0,2},{-1,0,1}}`, indexed by
(row, column); out-of-range indices (never reached by the code) give 0. -/
def SOBEL_X : ℕ → ℕ → ℤ
  | 0, 0 => -1 | 0, 1 => 0 | 0, 2 => 1
  | 1, 0 => -2 | 1, 1 => 0 | 1, 2 => 2
  | 2, 0 => -1 | 2, 1 => 0 | 2, 2 => 1
  | _, _ => 0

/-- Source kernel `SOBEL_Y = {{1,2,1},{0,0,0},{-1,-2,-1}}`. -/
def SOBEL_Y : ℕ → ℕ → ℤ
  | 0, 0 => 1 | 0, 1 => 2 | 0, 2 => 1
  | 1, 0 => 0 | 1, 1 => 0 | 1, 2 => 0
  | 2, 0 => -1 | 2, 1 => -2 | 2, 2 => -1
  | _, _ => 0

/-- `sobel_operator(input_pixels, x, y, width, height)`: clamped 3x3 window,
`gx`/`gy` are the weighted sums against the two Sobel kernels, the kernel cell
being indexed by the actual offset `dy - (y-1)`, `dx - (x-1)` (which in the
source's `size_t` arithmetic equals `dy + 1 - y`, `dx + 1 - x`); the result is
`|gx| + |gy|`. -/
def sobel_operator (input_pixels : Pixels) (x y width height : ℕ) : ℚ :=
  let start_x := x - 1
  let end_x := min (x + 1) (width - 1)
  let start_y := y - 1
  let end_y := min (y + 1) (height - 1)
  let gx : ℚ :=
    ((List.range (end_y + 1 - start_y)).map (fun j =>
      ((List.range (end_x + 1 - start_x)).map (fun i =>
        input_pixels.getD ((start_y + j) * width + (start_x + i)) 0 *
          ((SOBEL_X (start_y + j + 1 - y) (start_x + i + 1 - x) : ℤ) : ℚ))).sum)).sum
  let gy : ℚ :=
    ((List.range (end_y + 1 - start_y)).map (fun j =>
      ((List.range (end_x + 1 - start_x)).map (fun i =>
        input_pixels.getD ((start_y + j) * width + (start_x + i)) 0 *
          ((SOBEL_Y (start_y + j + 1 - y) (start_x + i + 1 - x) : ℤ) : ℚ))).sum)).sum
  |gx| + |gy|

/-- `blur_operator(input_pixels, x, y, width, height)`: sums the clamped
square window of radius `BLUR_RAD` and divides by the actual window area
`(end_x - start_x + 1) * (end_y - start_y + 1)`. -/
def blur_operator (input_pixels : Pixels) (x y width height : ℕ) : ℚ :=
  let start_x := x - BLUR_RAD
  let end_x := min (x + BLUR_RAD) (width - 1)
  let start_y := y - BLUR_RAD
  let end_y := min (y + BLUR_RAD) (height - 1)
  let divisor : ℕ := (end_x - start_x + 1) * (end_y - start_y + 1)
  let g : ℚ :=
    ((List.range (end_y + 1 - start_y)).map (fun j =>
      ((List.range (end_x + 1 - start_x)).map (fun i =>
        input_pixels.getD ((start_y + j) * width + (start_x + i)) 0)).sum)).sum
  g / (divisor : ℚ)

/-- `dialate_operator(input_pixels, x, y, width, height)`: returns 0 when the
center sample is exactly 0; otherwise sums the clamped square window of radius
`DENOISE_RAD` and divides by the actual window area. -/
def dialate_operator (input_pixels : Pixels) (x y width height : ℕ) : ℚ :=
  if input_pixels.getD (y * width + x) 0 = 0 then 0
  else
    let start_x := x - DENOISE_RAD
    let end_x := min (x + DENOISE_RAD) (width - 1)
    let start_y := y - DENOISE_RAD
    let end_y := min (y + DENOISE_RAD) (height - 1)
    let divisor : ℕ := (end_x - start_x + 1) * (end_y - start_y + 1)
    let g : ℚ :=
      ((List.range (end_y + 1 - start_y)).map (fun j =>
        ((List.range (end_x + 1 - start_x)).map (fun i =>
          input_pixels.getD ((start_y + j) * width + (start_x + i)) 0)).sum)).sum
    g / (divisor : ℚ)

/-- Average of the clamped square window of radius `r` around `(x, y)`,
divided by the actual (possibly shrunken) window area. This is the spec's
"arithmetic mean of all samples in the radius-r clamped square window"
written with `Finset` sums; the loop-based operators are proved equal to it. -/
def windowMean (r : ℕ) (input_pixels : Pixels) (x y width height : ℕ) : ℚ :=
  let sx := x - r
  let ex := min (x + r) (width - 1)
  let sy := y - r
  let ey := min (y + r) (height - 1)
  (∑ dy ∈ Finset.Icc sy ey, ∑ dx ∈ Finset.Icc sx ex,
      input_pixels.getD (dy * width + dx) 0) /
    (((ex - sx + 1) * (ey - sy + 1) : ℕ) : ℚ)

/-- `chunk_size * thread_idx` from `apply_kernel`: the first column of
worker `t`'s band (`chunk_size = width / T`). -/
def chunk_start (width T t : ℕ) : ℕ := (width / T) * t

/-- One-past-the-last column of worker `t`'s band: the last worker runs to
`width`, the others to `chunk_start + chunk_size`. -/
def chunk_end (width T t : ℕ) : ℕ :=
  if t = T - 1 then width else chunk_start width T t + width / T

/-- The (cell index, value) writes a single worker performs: all rows
`y < height`, columns `x ∈ [lo, hi)`, writing
`kernel_func(input_pixels, x, y, width, height)` at `y*width + x`. -/
def band_writes (kernel_func : Pixels → ℕ → ℕ → ℕ → ℕ → ℚ)
    (input_pixels : Pixels) (width height lo hi : ℕ) : List (ℕ × ℚ) :=
  (List.range height).flatMap (fun y =>
    (List.range (hi - lo)).map (fun i =>
      (y * width + (lo + i), kernel_func input_pixels (lo + i) y width height)))

/-- Perform a list of buffer writes in order. -/
def write_cells (ws : List (ℕ × ℚ)) (buf : Pixels) : Pixels :=
  ws.foldl (fun b pv => b.set pv.1 pv.2) buf

/-- `apply_kernel(input_pixels, width, height, kernel_func)` with worker
count `T` (the source's `std::thread::hardware_concurrency()`, taken here as
a parameter): a zero-initialized output buffer of `width * height` cells into
which each worker `t < T` writes its column band. The workers' write sets are
disjoint, so the concurrent execution is modelled by performing them in
thread-index order. -/
def apply_kernel (T : ℕ) (input_pixels : Pixels) (width height : ℕ)
    (kernel_func : Pixels → ℕ → ℕ → ℕ → ℕ → ℚ) : Pixels :=
  (List.range T).foldl (fun buf t =>
    write_cells
      (band_writes kernel_func input_pixels width height
        (chunk_start width T t) (chunk_end width T t)) buf)
    (List.replicate (width * height) 0)

/-- Single-threaded reference evaluation, written from the spec's words: the
output field has the input's dimensions and every sample at `(x, y)` is the
operator evaluated there (`x = i % width`, `y = i / width`). -/
def apply_single_threaded_ref (input_pixels : Pixels) (width height : ℕ)
    (kernel_func : Pixels → ℕ → ℕ → ℕ → ℕ → ℚ) : Pixels :=
  (List.range (width * height)).map (fun i =>
    kernel_func input_pixels (i % width) (i / width) width height)

/-- The C++ `float` → `unsigned char` conversion used by the threshold code:
truncation toward zero of a nonnegative sample, reduced mod 256 (values
outside `[0, 256)` are undefined behavior in the source; the pipeline only
reaches this with nonnegative samples). -/
def toByte (v : ℚ) : ℕ := Int.toNat ⌊v⌋ % 256

/-- The histogram filter from `process_image`: a byte value is skipped when
`pixel_value < 1 || pixel_value > 50`, so it is kept when `0 < b < 51`. -/
def kept (b : ℕ) : Bool := !(decide (b < 1) || decide (50 < b))

/-- `pixel_frequency[b]`: how many samples quantize to byte value `b` after
the interest-band filter. -/
def pixel_frequency (pixels : Pixels) (b : ℕ) : ℕ :=
  ((pixels.map toByte).filter (fun v => kept v)).count b

/-- Mode threshold selection from `process_image`: the `unordered_map`'s key
set holds exactly the distinct in-band byte values, and `std::max_element`
starts at the first entry and replaces it whenever a later entry has a
strictly larger count, keeping the first maximum in iteration order (the hash
order is unspecified; first-occurrence order is used here). With an empty
table the source dereferences the past-the-end iterator, modelled as `none`. -/
def mode_threshold (pixels : Pixels) : Option ℕ :=
  match ((pixels.map toByte).filter (fun v => kept v)).dedup with
  | [] => none
  | c :: cs =>
      some (cs.foldl (fun best b =>
        if pixel_frequency pixels best < pixel_frequency pixels b then b else best) c)

/-- The classification loop of `process_image`:
`dist = (unsigned char) |byte - threshold|` and the output sample is 255 when
`dist < CERTAINTY`, else 0. -/
def classify (pixels : Pixels) (threshold : ℕ) : List ℕ :=
  pixels.map (fun p =>
    if ((toByte p : ℤ) - (threshold : ℤ)).natAbs % 256 < CERTAINTY then 255 else 0)

/-- The in-place re-quantization inside `dialate`'s loop:
`pixels[i] = pixels[i] > 127 ? 255 : 0`. -/
def quantize_step (pixels : Pixels) : Pixels :=
  pixels.map (fun v => if 127 < v then 255 else 0)

/-- One iteration of `dialate`'s loop: one convolution pass with
`dialate_operator` followed by re-quantization. -/
def dialate_transition (T width height : ℕ) (pixels : Pixels) : Pixels :=
  quantize_step (apply_kernel T pixels width height dialate_operator)

/-- `dialate(input_pixels, width, height)` with worker count `T`: widen the
byte mask to float, run `DENOISE_COUNT` transitions, convert back to bytes. -/
def dialate (T : ℕ) (input_pixels : List ℕ) (width height : ℕ) : List ℕ :=
  let pixels : Pixels := input_pixels.map (fun b => (b : ℚ))
  let final := (dialate_transition T width height)^[DENOISE_COUNT] pixels
  final.map toByte

/-- The grayscale reduction loop of `process_image`: for each pixel `i`,
`average` starts at 0, and only when `channels >= 3` is it replaced by the
mean of the first three channel bytes at `index = i * channels`. -/
def grayscale (image : List ℕ) (width height channels : ℕ) : Pixels :=
  (List.range (width * height)).map (fun i =>
    if 3 ≤ channels then
      ((image.getD (i * channels) 0 : ℚ) + (image.getD (i * channels + 1) 0 : ℚ) +
        (image.getD (i * channels + 2) 0 : ℚ)) / 3
    else 0)

/-! Helper lemmas about buffers, sums and the band partition. -/

lemma getD_set_self (l : List ℚ) (p : ℕ) (v : ℚ) (h : p < l.length) :
    (l.set p v).getD p 0 = v := by
  simp [List.getD_eq_getElem?_getD, List.getElem?_set_self, h]

lemma getD_set_ne (l : List ℚ) (p q : ℕ) (v : ℚ) (h : q ≠ p) :
    (l.set q v).getD p 0 = l.getD p 0 := by
  simp [List.getD_eq_getElem?_getD, List.getElem?_set_ne h]

lemma getD_map_range (n : ℕ) (f : ℕ → ℚ) (i : ℕ) (h : i < n) :
    ((List.range n).map f).getD i 0 = f i := by
  rw [List.getD_eq_getElem?_getD]
  simp [List.getElem?_map, List.getElem?_range h]

lemma getD_replicate_of_lt (n i : ℕ) (v : ℚ) (h : i < n) :
    (List.replicate n v).getD i 0 = v := by
  rw [List.getD_eq_getElem?_getD]
  simp [List.getElem?_replicate, h]

lemma sum_map_range (n : ℕ) (f : ℕ → ℚ) :
    ((List.range n).map f).sum = ∑ i ∈ Finset.range n, f i := by
  induction n with
  | zero => simp
  | succ n ih => rw [List.range_succ]; simp [ih, Finset.sum_range_succ]

lemma sum_map_range_Icc (s e : ℕ) (f : ℕ → ℚ) :
    ((List.range (e + 1 - s)).map (fun i => f (s + i))).sum =
      ∑ i ∈ Finset.Icc s e, f i := by
  rw [sum_map_range, ← Nat.Ico_succ_right, Finset.sum_Ico_eq_sum_range]

lemma index_lt {a b w h : ℕ} (ha : a < h) (hb : b < w) : a * w + b < w * h := by
  calc a * w + b < a * w + w := by omega
    _ = (a + 1) * w := by ring
    _ ≤ h * w := Nat.mul_le_mul_right w ha
    _ = w * h := Nat.mul_comm h w

lemma index_inj {a a' b b' w : ℕ} (hb : b < w) (hb' : b' < w)
    (h : a * w + b = a' * w + b') : a = a' ∧ b = b' := by
  have h1 : (a * w + b) % w = b := by
    rw [Nat.mul_comm a w, Nat.mul_add_mod]; exact Nat.mod_eq_of_lt hb
  have h2 : (a' * w + b') % w = b' := by
    rw [Nat.mul_comm a' w, Nat.mul_add_mod]; exact Nat.mod_eq_of_lt hb'
  have hbb : b = b' := by rw [← h1, ← h2, h]
  refine ⟨?_, hbb⟩
  have hw : 0 < w := Nat.lt_of_le_of_lt (Nat.zero_le b) hb
  have := h
  rw [hbb] at this
  have := Nat.add_right_cancel this
  exact Nat.eq_of_mul_eq_mul_right hw this

namespace write_lemmas

lemma write_cells_cons (pv : ℕ × ℚ) (rest : List (ℕ × ℚ)) (buf : Pixels) :
    write_cells (pv :: rest) buf = write_cells rest (buf.set pv.1 pv.2) := rfl

lemma length_write_cells (ws : List (ℕ × ℚ)) (buf : Pixels) :
    (write_cells ws buf).length = buf.length := by
  induction ws generalizing buf with
  | nil => rfl
  | cons pv rest ih =>
      rw [write_cells_cons, ih (buf.set pv.1 pv.2), List.length_set]

lemma getD_write_cells_not_mem (ws : List (ℕ × ℚ)) (buf : Pixels) (p : ℕ)
    (h : p ∉ ws.map Prod.fst) : (write_cells ws buf).getD p 0 = buf.getD p 0 := by
  induction ws generalizing buf with
  | nil => rfl
  | cons pv rest ih =>
      simp only [List.map_cons, List.mem_cons, not_or] at h
      rw [write_cells_cons, ih (buf.set pv.1 pv.2) h.2,
        getD_set_ne buf p pv.1 pv.2 (Ne.symm h.1)]

lemma getD_write_cells_mem (ws : List (ℕ × ℚ)) (buf : Pixels) (p : ℕ) (v : ℚ)
    (hnd : (ws.map Prod.fst).Nodup) (hmem : (p, v) ∈ ws) (hlt : p < buf.length) :
    (write_cells ws buf).getD p 0 = v := by
  induction ws generalizing buf with
  | nil => cases hmem
  | cons pv rest ih =>
      simp only [List.map_cons, List.nodup_cons] at hnd
      rw [write_cells_cons]
      rcases List.mem_cons.mp hmem with heq | hrest
      · subst heq
        rw [getD_write_cells_not_mem rest _ p hnd.1]
        exact getD_set_self buf p v hlt
      · exact ih (buf.set pv.1 pv.2) hnd.2 hrest (by rwa [List.length_set])

end write_lemmas

namespace band_lemmas

lemma mem_band_writes_fst {ker : Pixels → ℕ → ℕ → ℕ → ℕ → ℚ} {inp : Pixels}
    {w h lo hi p : ℕ} :
    p ∈ (band_writes ker inp w h lo hi).map Prod.fst ↔
      ∃ y, y < h ∧ ∃ x, lo ≤ x ∧ x < hi ∧ p = y * w + x := by
  simp only [band_writes, List.map_flatMap, List.map_map, List.mem_flatMap,
    List.mem_map, List.mem_range, Function.comp]
  constructor
  · rintro ⟨y, hy, i, hi', rfl⟩
    exact ⟨y, hy, lo + i, Nat.le_add_right _ _, by omega, rfl⟩
  · rintro ⟨y, hy, x, hlo, hhi, rfl⟩
    refine ⟨y, hy, x - lo, by omega, ?_⟩
    have hx : lo + (x - lo) = x := by omega
    rw [hx]

lemma band_writes_mem {ker : Pixels → ℕ → ℕ → ℕ → ℕ → ℚ} {inp : Pixels}
    {w h lo hi x y : ℕ} (hy : y < h) (hlo : lo ≤ x) (hhi : x < hi) :
    (y * w + x, ker inp x y w h) ∈ band_writes ker inp w h lo hi := by
  simp only [band_writes, List.mem_flatMap, List.mem_map, List.mem_range]
  refine ⟨y, hy, x - lo, by omega, ?_⟩
  have : lo + (x - lo) = x := by omega
  rw [this]

lemma band_writes_nodup {ker : Pixels → ℕ → ℕ → ℕ → ℕ → ℚ} {inp : Pixels}
    {w h lo hi : ℕ} (hw : hi ≤ w) :
    ((band_writes ker inp w h lo hi).map Prod.fst).Nodup := by
  simp only [band_writes, List.map_flatMap, List.map_map, Function.comp]
  rw [List.nodup_flatMap]
  constructor
  · intro y _
    refine List.Nodup.map ?_ (List.nodup_range _)
    intro i j hij
    simpa using hij
  · refine (List.pairwise_lt_range _).imp ?_
    intro a b hab
    simp only [Function.onFun, List.disjoint_left]
    intro q hqa hqb
    simp only [List.mem_map, List.mem_range] at hqa hqb
    obtain ⟨i, hi', hqi⟩ := hqa
    obtain ⟨j, hj', hqj⟩ := hqb
    have hxi : lo + i < w := by omega
    have hxj : lo + j < w := by omega
    simp only [Function.comp_apply] at hqi hqj
    have hq : a * w + (lo + i) = b * w + (lo + j) := hqi.trans hqj.symm
    have := index_inj hxi hxj hq
    omega

end band_lemmas

namespace partition

lemma chunk_end_le {w T t : ℕ} (ht : t < T) : chunk_end w T t ≤ w := by
  unfold chunk_end chunk_start
  split
  · exact le_rfl
  · have h1 : (w / T) * t + w / T = (w / T) * (t + 1) := by ring
    have h2 : (w / T) * (t + 1) ≤ (w / T) * T := Nat.mul_le_mul_left _ (by omega)
    have h3 : (w / T) * T ≤ w := Nat.div_mul_le_self w T
    omega

lemma band_cover {w T x : ℕ} (hT : 1 ≤ T) (hx : x < w) :
    ∃ t, t < T ∧ chunk_start w T t ≤ x ∧ x < chunk_end w T t := by
  by_cases hc0 : w / T = 0
  · refine ⟨T - 1, by omega, ?_, ?_⟩
    · unfold chunk_start; rw [hc0]; simp
    · unfold chunk_end; rw [if_pos rfl]; exact hx
  · by_cases hq : x / (w / T) < T - 1
    · refine ⟨x / (w / T), by omega, ?_, ?_⟩
      · unfold chunk_start
        exact Nat.mul_div_le x (w / T)
      · unfold chunk_end chunk_start
        rw [if_neg (by omega)]
        have h1 : (w / T) * (x / (w / T)) + x % (w / T) = x :=
          Nat.div_add_mod x (w / T)
        have h2 : x % (w / T) < w / T := Nat.mod_lt _ (Nat.pos_of_ne_zero hc0)
        omega
    · refine ⟨T - 1, by omega, ?_, ?_⟩
      · unfold chunk_start
        have h1 : (w / T) * (T - 1) ≤ (w / T) * (x / (w / T)) :=
          Nat.mul_le_mul_left _ (by omega)
        have h2 : (w / T) * (x / (w / T)) ≤ x := Nat.mul_div_le x (w / T)
        omega
      · unfold chunk_end; rw [if_pos rfl]; exact hx

lemma band_disjoint {w T t t' x : ℕ} (ht' : t' < T) (htt : t < t')
    (hx : x < chunk_end w T t) (hx' : chunk_start w T t' ≤ x) : False := by
  have hne : t ≠ T - 1 := by omega
  unfold chunk_end at hx
  rw [if_neg hne] at hx
  unfold chunk_start at hx hx'
  have h1 : (w / T) * t + w / T = (w / T) * (t + 1) := by ring
  have h2 : (w / T) * (t + 1) ≤ (w / T) * t' := Nat.mul_le_mul_left _ (by omega)
  omega

lemma band_unique {w T t t' x : ℕ} (ht : t < T) (ht' : t' < T)
    (hs : chunk_start w T t ≤ x) (he : x < chunk_end w T t)
    (hs' : chunk_start w T t' ≤ x) (he' : x < chunk_end w T t') : t = t' := by
  rcases Nat.lt_trichotomy t t' with h | h | h
  · exact absurd (band_disjoint ht' h he hs') id
  · exact h
  · exact absurd (band_disjoint ht h he' hs) id

end partition

namespace engine

open write_lemmas band_lemmas partition

lemma foldl_write_length (ts : List ℕ) (W : ℕ → List (ℕ × ℚ)) (buf : Pixels) :
    (ts.foldl (fun b t => write_cells (W t) b) buf).length = buf.length := by
  induction ts generalizing buf with
  | nil => rfl
  | cons t rest ih => rw [List.foldl_cons, ih, length_write_cells]

lemma foldl_write_not_mem (ts : List ℕ) (W : ℕ → List (ℕ × ℚ)) (buf : Pixels)
    (p : ℕ) (h : ∀ t ∈ ts, p ∉ (W t).map Prod.fst) :
    (ts.foldl (fun b t => write_cells (W t) b) buf).getD p 0 = buf.getD p 0 := by
  induction ts generalizing buf with
  | nil => rfl
  | cons t rest ih =>
      rw [List.foldl_cons, ih _ (fun u hu => h u (List.mem_cons_of_mem _ hu)),
        getD_write_cells_not_mem _ _ _ (h t (List.mem_cons_self _ _))]

lemma foldl_write_mem (ts : List ℕ) (W : ℕ → List (ℕ × ℚ)) (buf : Pixels)
    (p : ℕ) (v : ℚ) (t0 : ℕ) (hnd : ts.Nodup) (ht0 : t0 ∈ ts)
    (hmem : (p, v) ∈ W t0) (hWnd : ((W t0).map Prod.fst).Nodup)
    (hlt : p < buf.length)
    (hothers : ∀ t ∈ ts, t ≠ t0 → p ∉ (W t).map Prod.fst) :
    (ts.foldl (fun b t => write_cells (W t) b) buf).getD p 0 = v := by
  induction ts generalizing buf with
  | nil => cases ht0
  | cons t rest ih =>
      rw [List.foldl_cons]
      rcases List.mem_cons.mp ht0 with heq | hrest
      · subst heq
        have hnot : ∀ u ∈ rest, p ∉ (W u).map Prod.fst := by
          intro u hu
          have hun : u ≠ t0 := by
            intro he
            exact (List.nodup_cons.mp hnd).1 (he ▸ hu)
          exact hothers u (List.mem_cons_of_mem _ hu) hun
        rw [foldl_write_not_mem rest W _ p hnot]
        exact getD_write_cells_mem _ _ _ _ hWnd hmem hlt
      · exact ih (write_cells (W t) buf) (List.nodup_cons.mp hnd).2 hrest
          (by rwa [length_write_cells])
          (fun u hu hun => hothers u (List.mem_cons_of_mem _ hu) hun)

lemma apply_kernel_length (T : ℕ) (inp : Pixels) (w h : ℕ)
    (ker : Pixels → ℕ → ℕ → ℕ → ℕ → ℚ) :
    (apply_kernel T inp w h ker).length = w * h := by
  unfold apply_kernel
  rw [foldl_write_length, List.length_replicate]

lemma apply_kernel_getD {T w h : ℕ} (hT : 1 ≤ T) (inp : Pixels)
    (ker : Pixels → ℕ → ℕ → ℕ → ℕ → ℚ) {x y : ℕ} (hx : x < w) (hy : y < h) :
    (apply_kernel T inp w h ker).getD (y * w + x) 0 = ker inp x y w h := by
  obtain ⟨t0, ht0T, hs, he⟩ := band_cover hT hx
  unfold apply_kernel
  refine foldl_write_mem (List.range T) _ _ _ _ t0 (List.nodup_range _)
    (List.mem_range.mpr ht0T) (band_writes_mem hy hs he)
    (band_writes_nodup (chunk_end_le ht0T)) ?_ ?_
  · rw [List.length_replicate]
    exact index_lt hy hx
  · intro t ht htne hmem
    rw [mem_band_writes_fst] at hmem
    obtain ⟨y', hy', x', hlo, hhi, heq⟩ := hmem
    have htT : t < T := List.mem_range.mp ht
    have hx'w : x' < w := lt_of_lt_of_le hhi (chunk_end_le htT)
    obtain ⟨hyy, hxx⟩ := index_inj hx hx'w heq
    exact htne (band_unique htT ht0T (hxx ▸ hlo) (hxx ▸ hhi) hs he)

lemma apply_ref_length (inp : Pixels) (w h : ℕ)
    (ker : Pixels → ℕ → ℕ → ℕ → ℕ → ℚ) :
    (apply_single_threaded_ref inp w h ker).length = w * h := by
  unfold apply_single_threaded_ref
  rw [List.length_map, List.length_range]

lemma apply_ref_getD (inp : Pixels) {w h : ℕ}
    (ker : Pixels → ℕ → ℕ → ℕ → ℕ → ℚ) {x y : ℕ} (hx : x < w) (hy : y < h) :
    (apply_single_threaded_ref inp w h ker).getD (y * w + x) 0 = ker inp x y w h := by
  unfold apply_single_threaded_ref
  rw [getD_map_range _ _ _ (index_lt hy hx)]
  have hmod : (y * w + x) % w = x := by
    rw [Nat.mul_comm y w, Nat.mul_add_mod]
    exact Nat.mod_eq_of_lt hx
  have hdiv : (y * w + x) / w = y := by
    rw [Nat.mul_comm y w, Nat.mul_add_div (by omega), Nat.div_eq_of_lt hx]
    exact Nat.add_zero y
  rw [hmod, hdiv]

lemma apply_kernel_eq_ref {T : ℕ} (hT : 1 ≤ T) (inp : Pixels) (w h : ℕ)
    (ker : Pixels → ℕ → ℕ → ℕ → ℕ → ℚ) :
    apply_kernel T inp w h ker = apply_single_threaded_ref inp w h ker := by
  apply List.ext_getElem
  · rw [apply_kernel_length, apply_ref_length]
  · intro i h1 h2
    have h1' : i < w * h := by rwa [apply_kernel_length] at h1
    have hw : 0 < w := by
      rcases Nat.eq_zero_or_pos w with h | h
      · subst h; omega
      · exact h
    have hx : i % w < w := Nat.mod_lt _ hw
    have hy : i / w < h := by
      rw [Nat.div_lt_iff_lt_mul hw]
      have hcomm : w * h = h * w := Nat.mul_comm w h
      omega
    have hi : i = (i / w) * w + i % w := by
      rw [Nat.mul_comm, Nat.div_add_mod]
    have e1 := apply_kernel_getD hT inp ker hx hy
    have e2 := apply_ref_getD inp ker hx hy
    rw [← hi] at e1 e2
    rw [← List.getD_eq_getElem (apply_kernel T inp w h ker) 0 h1,
      ← List.getD_eq_getElem (apply_single_threaded_ref inp w h ker) 0 h2,
      e1, e2]

end engine

/-! Claim theorems. -/

/-- C1: for every input field and operator, `apply_kernel` with any worker
count `T ≥ 1` returns a field of the same dimensions whose every sample at
`(x, y)` is the operator evaluated there; the multi-threaded column-band run
is bit-identical to the single-threaded reference evaluation, with no
cross-contamination across band boundaries. -/
theorem apply_kernel_refines_single_threaded (T w h : ℕ) (hT : 1 ≤ T)
    (inp : Pixels) (ker : Pixels → ℕ → ℕ → ℕ → ℕ → ℚ) :
    (apply_kernel T inp w h ker).length = w * h ∧
    apply_kernel T inp w h ker = apply_single_threaded_ref inp w h ker ∧
    ∀ x y, x < w → y < h →
      (apply_kernel T inp w h ker).getD (y * w + x) 0 = ker inp x y w h := by
  refine ⟨engine.apply_kernel_length T inp w h ker,
    engine.apply_kernel_eq_ref hT inp w h ker, ?_⟩
  intro x y hx hy
  exact engine.apply_kernel_getD hT inp ker hx hy

/-- Witness for C1 at a concrete field, operator and worker count. -/
theorem apply_kernel_refines_single_threaded_witness :
    1 ≤ 2 ∧
    apply_kernel 2 [1, 2, 3, 4, 5, 6] 3 2 sobel_operator =
      apply_single_threaded_ref [1, 2, 3, 4, 5, 6] 3 2 sobel_operator :=
  ⟨by decide,
    (apply_kernel_refines_single_threaded 2 3 2 (by decide)
      [1, 2, 3, 4, 5, 6] sobel_operator).2.1⟩

/-- C2: for every width and worker count `T ≥ 1`, the column range
`[0, width)` is split into `T` contiguous bands: band `i` (for `i < T-1`)
is `[i*(width/T), (i+1)*(width/T))` and the final band runs to `width`;
the bands are pairwise disjoint and cover `[0, width)`, and each worker's
writes stay inside its own band's columns. -/
theorem band_partition_correct (w T : ℕ) (hT : 1 ≤ T) :
    (∀ t, t + 1 < T → chunk_start w T t = t * (w / T) ∧
      chunk_end w T t = (t + 1) * (w / T)) ∧
    (chunk_start w T (T - 1) = (T - 1) * (w / T) ∧ chunk_end w T (T - 1) = w) ∧
    (∀ t t', t < T → t' < T → t ≠ t' → ∀ x, chunk_start w T t ≤ x →
      x < chunk_end w T t → ¬(chunk_start w T t' ≤ x ∧ x < chunk_end w T t')) ∧
    (∀ x, x < w → ∃ t, t < T ∧ chunk_start w T t ≤ x ∧ x < chunk_end w T t) ∧
    (∀ ker inp h t p, t < T →
      p ∈ (band_writes ker inp w h (chunk_start w T t) (chunk_end w T t)).map
        Prod.fst →
      ∃ y, y < h ∧ ∃ x, chunk_start w T t ≤ x ∧ x < chunk_end w T t ∧
        p = y * w + x) := by
  refine ⟨?_, ⟨?_, ?_⟩, ?_, ?_, ?_⟩
  · intro t ht
    constructor
    · unfold chunk_start; ring
    · unfold chunk_end chunk_start
      rw [if_neg (by omega)]
      ring
  · unfold chunk_start; ring
  · unfold chunk_end; rw [if_pos rfl]
  · intro t t' ht ht' htt x hs he
    rintro ⟨hs', he'⟩
    exact htt (partition.band_unique ht ht' hs he hs' he')
  · intro x hx
    exact partition.band_cover hT hx
  · intro ker inp h t p ht hp
    exact band_lemmas.mem_band_writes_fst.mp hp

/-- Witness for C2 at a concrete width and worker count. -/
theorem band_partition_correct_witness :
    1 ≤ 3 ∧ chunk_start 10 3 2 = 2 * (10 / 3) ∧ chunk_end 10 3 2 = 10 :=
  ⟨by decide, (band_partition_correct 10 3 (by decide)).2.1⟩

/-- C3 evaluation: the source takes the worker count directly from
`std::thread::hardware_concurrency()` with no fallback. When that count is 0
the engine performs `width / 0` and spawns no workers, so the output stays
the zero-initialized buffer instead of the operator's values: there is no
`T = 1` fallback in the code. -/
theorem apply_kernel_zero_workers_no_fallback :
    apply_kernel 0 [(5 : ℚ)] 1 1 (fun _ _ _ _ _ => 1) = [0] ∧
    apply_single_threaded_ref [(5 : ℚ)] 1 1 (fun _ _ _ _ _ => 1) = [1] := by
  constructor <;> rfl

namespace threshold

lemma kept_iff (b : ℕ) : kept b = true ↔ 1 ≤ b ∧ b ≤ 50 := by
  unfold kept
  simp
  omega

lemma pixel_frequency_out_band (pixels : Pixels) (b : ℕ)
    (h : ¬(1 ≤ b ∧ b ≤ 50)) : pixel_frequency pixels b = 0 := by
  unfold pixel_frequency
  apply List.count_eq_zero.mpr
  intro hmem
  have := List.of_mem_filter hmem
  rw [kept_iff] at this
  exact h this

lemma pixel_frequency_in_band (pixels : Pixels) (b : ℕ)
    (h1 : 1 ≤ b) (h2 : b ≤ 50) :
    pixel_frequency pixels b = (pixels.map toByte).count b := by
  unfold pixel_frequency
  exact List.count_filter (by rw [kept_iff]; exact ⟨h1, h2⟩)

lemma foldl_argmax_ge (f : ℕ → ℕ) (l : List ℕ) (a : ℕ) :
    f a ≤ f (l.foldl (fun best b => if f best < f b then b else best) a) ∧
    ∀ b ∈ l, f b ≤ f (l.foldl (fun best b => if f best < f b then b else best) a) := by
  induction l generalizing a with
  | nil => simp
  | cons c rest ih =>
      rw [List.foldl_cons]
      by_cases h : f a < f c
      · rw [if_pos h]
        refine ⟨le_trans (le_of_lt h) (ih c).1, ?_⟩
        intro b hb
        rcases List.mem_cons.mp hb with rfl | hbr
        · exact (ih b).1
        · exact (ih c).2 b hbr
      · rw [if_neg h]
        refine ⟨(ih a).1, ?_⟩
        intro b hb
        rcases List.mem_cons.mp hb with rfl | hbr
        · exact le_trans (le_of_not_lt h) (ih a).1
        · exact (ih a).2 b hbr

lemma foldl_argmax_mem (f : ℕ → ℕ) (l : List ℕ) (a : ℕ) :
    l.foldl (fun best b => if f best < f b then b else best) a = a ∨
    l.foldl (fun best b => if f best < f b then b else best) a ∈ l := by
  induction l generalizing a with
  | nil => left; rfl
  | cons c rest ih =>
      rw [List.foldl_cons]
      by_cases h : f a < f c
      · rw [if_pos h]
        rcases ih c with h1 | h1
        · right; rw [h1]; exact List.mem_cons_self _ _
        · right; exact List.mem_cons_of_mem _ h1
      · rw [if_neg h]
        rcases ih a with h1 | h1
        · left; exact h1
        · right; exact List.mem_cons_of_mem _ h1

lemma freq_pos_mem {pixels : Pixels} {b : ℕ} (h : 0 < pixel_frequency pixels b) :
    b ∈ ((pixels.map toByte).filter (fun v => kept v)).dedup := by
  unfold pixel_frequency at h
  exact List.mem_dedup.mpr (List.count_pos_iff.mp h)

lemma mode_threshold_eq {pixels : Pixels} {t : ℕ}
    (h : mode_threshold pixels = some t) :
    ∃ c cs, ((pixels.map toByte).filter (fun v => kept v)).dedup = c :: cs ∧
      t = cs.foldl (fun best b =>
        if pixel_frequency pixels best < pixel_frequency pixels b then b
        else best) c := by
  unfold mode_threshold at h
  rcases hd : ((pixels.map toByte).filter (fun v => kept v)).dedup with _ | ⟨c, cs⟩
  · rw [hd] at h
    cases h
  · rw [hd] at h
    exact ⟨c, cs, rfl, (Option.some_injective _ h).symm⟩

lemma mode_threshold_is_max {pixels : Pixels} {t : ℕ}
    (h : mode_threshold pixels = some t) :
    ∀ b, pixel_frequency pixels b ≤ pixel_frequency pixels t := by
  obtain ⟨c, cs, hd, ht⟩ := mode_threshold_eq h
  intro b
  rcases Nat.eq_zero_or_pos (pixel_frequency pixels b) with h0 | hpos
  · rw [h0]
    exact Nat.zero_le _
  · have hmem := freq_pos_mem hpos
    rw [hd] at hmem
    rcases List.mem_cons.mp hmem with rfl | hbcs
    · rw [ht]
      exact (foldl_argmax_ge _ cs b).1
    · rw [ht]
      exact (foldl_argmax_ge _ cs c).2 b hbcs

lemma mode_threshold_mem_band {pixels : Pixels} {t : ℕ}
    (h : mode_threshold pixels = some t) : 1 ≤ t ∧ t ≤ 50 := by
  obtain ⟨c, cs, hd, ht⟩ := mode_threshold_eq h
  have htmem : t ∈ ((pixels.map toByte).filter (fun v => kept v)).dedup := by
    rw [hd]
    rcases foldl_argmax_mem (pixel_frequency pixels) cs c with h1 | h1
    · rw [ht, h1]
      exact List.mem_cons_self _ _
    · rw [ht]
      exact List.mem_cons_of_mem _ h1
  have := List.of_mem_filter (List.mem_dedup.mp htmem)
  rwa [kept_iff] at this

lemma toByte_lt (v : ℚ) : toByte v < 256 := by
  unfold toByte
  exact Nat.mod_lt _ (by omega)

lemma classify_no_wrap (pixels : Pixels) (t : ℕ) (ht : t ≤ 255) :
    classify pixels t = pixels.map (fun p =>
      if ((toByte p : ℤ) - (t : ℤ)).natAbs < CERTAINTY then 255 else 0) := by
  unfold classify
  apply List.map_congr_left
  intro p _
  have h1 : toByte p < 256 := toByte_lt p
  have h2 : ((toByte p : ℤ) - (t : ℤ)).natAbs < 256 := by omega
  rw [Nat.mod_eq_of_lt h2]

end threshold

/-- C4: the mode strategy counts the quantized-to-byte samples restricted to
the interest band (`1 ≤ b ≤ 50`, i.e. strictly between 0 and 51, excluding
0/background and high outliers), the chosen threshold is a byte value of
maximal frequency (and lies inside the band), and classification marks a
sample foreground (255) iff `|byteValue - threshold| < CERTAINTY` with
`CERTAINTY = 5`. -/
theorem mode_threshold_spec (pixels : Pixels) (t : ℕ)
    (h : mode_threshold pixels = some t) :
    (∀ b, ¬(1 ≤ b ∧ b ≤ 50) → pixel_frequency pixels b = 0) ∧
    (∀ b, 1 ≤ b → b ≤ 50 →
      pixel_frequency pixels b = (pixels.map toByte).count b) ∧
    (1 ≤ t ∧ t ≤ 50) ∧
    (∀ b, pixel_frequency pixels b ≤ pixel_frequency pixels t) ∧
    CERTAINTY = 5 ∧
    classify pixels t = pixels.map (fun p =>
      if ((toByte p : ℤ) - (t : ℤ)).natAbs < CERTAINTY then 255 else 0) := by
  refine ⟨fun b hb => threshold.pixel_frequency_out_band pixels b hb,
    fun b h1 h2 => threshold.pixel_frequency_in_band pixels b h1 h2,
    threshold.mode_threshold_mem_band h,
    threshold.mode_threshold_is_max h, rfl, ?_⟩
  have hband := threshold.mode_threshold_mem_band h
  exact threshold.classify_no_wrap pixels t (by omega)

/-- Witness for C4 on a concrete field whose mode threshold is 10. -/
theorem mode_threshold_spec_witness :
    mode_threshold [(10 : ℚ), 10, 3] = some 10 ∧ 1 ≤ 10 ∧ 10 ≤ 50 :=
  ⟨by decide, (mode_threshold_spec [(10 : ℚ), 10, 3] 10 (by decide)).2.2.1⟩

/-- C10: when no sample quantizes into the interest band (for example on an
all-zero field) the frequency table is empty and the mode selection has no
candidate: the embedded selection returns `none`, the branch on which the
source dereferences `std::max_element`'s past-the-end iterator. -/
theorem mode_selection_no_candidate :
    (∀ pixels : Pixels, (∀ p ∈ pixels, kept (toByte p) = false) →
      mode_threshold pixels = none ∧ ∀ b, pixel_frequency pixels b = 0) ∧
    (∀ n, mode_threshold (List.replicate n (0 : ℚ)) = none) := by
  have key : ∀ pixels : Pixels, (∀ p ∈ pixels, kept (toByte p) = false) →
      (pixels.map toByte).filter (fun v => kept v) = [] := by
    intro pixels hp
    rw [List.filter_eq_nil_iff]
    intro a ha
    obtain ⟨p, hpmem, rfl⟩ := List.mem_map.mp ha
    simp [hp p hpmem]
  constructor
  · intro pixels hp
    constructor
    · unfold mode_threshold
      rw [key pixels hp, List.dedup_nil]
    · intro b
      unfold pixel_frequency
      rw [key pixels hp]
      rfl
  · intro n
    have hzero : ∀ p ∈ List.replicate n (0 : ℚ), kept (toByte p) = false := by
      intro p hp
      have hp0 : p = 0 := List.eq_of_mem_replicate hp
      subst hp0
      rfl
    unfold mode_threshold
    rw [key (List.replicate n (0 : ℚ)) hzero, List.dedup_nil]

/-- Witness for C10: the all-zero 4-sample field has an empty frequency
table and no mode candidate. -/
theorem mode_selection_no_candidate_witness :
    mode_threshold (List.replicate 4 (0 : ℚ)) = none ∧
    pixel_frequency (List.replicate 4 (0 : ℚ)) 10 = 0 :=
  ⟨(mode_selection_no_candidate.1 (List.replicate 4 (0 : ℚ)) (by decide)).1,
    (mode_selection_no_candidate.1 (List.replicate 4 (0 : ℚ)) (by decide)).2 10⟩

/-- C9: grayscale reduction is total: with fewer than 3 channels every
intensity sample is 0 (no error is raised for this case), and with at least
3 channels every sample is the mean of the pixel's first three channel
bytes; the field has `width * height` samples either way. -/
theorem grayscale_spec (image : List ℕ) (w h channels : ℕ) :
    (grayscale image w h channels).length = w * h ∧
    (channels < 3 → ∀ i, i < w * h →
      (grayscale image w h channels).getD i 0 = 0) ∧
    (3 ≤ channels → ∀ i, i < w * h →
      (grayscale image w h channels).getD i 0 =
        ((image.getD (i * channels) 0 : ℚ) +
          (image.getD (i * channels + 1) 0 : ℚ) +
          (image.getD (i * channels + 2) 0 : ℚ)) / 3) := by
  refine ⟨?_, ?_, ?_⟩
  · unfold grayscale
    rw [List.length_map, List.length_range]
  · intro hc i hi
    unfold grayscale
    rw [getD_map_range _ _ _ hi, if_neg (by omega)]
  · intro hc i hi
    unfold grayscale
    rw [getD_map_range _ _ _ hi, if_pos hc]

/-- Witness for C9: a 2-pixel single-channel image reduces to the all-zero
field; a 2-pixel 3-channel image averages the first three channels. -/
theorem grayscale_spec_witness :
    (grayscale [10, 20] 2 1 1).getD 0 0 = 0 ∧
    (grayscale [9, 10, 11, 30, 40, 50] 2 1 3).getD 1 0 =
      (((30 : ℚ) + 40 + 50) / 3) :=
  ⟨(grayscale_spec [10, 20] 2 1 1).2.1 (by decide) 0 (by decide),
    by
      have := (grayscale_spec [9, 10, 11, 30, 40, 50] 2 1 3).2.2
        (by decide) 1 (by decide)
      rw [this]
      norm_num⟩

namespace morph

lemma quantize_step_mem (pixels : Pixels) (v : ℚ) (h : v ∈ quantize_step pixels) :
    v = 0 ∨ v = 255 := by
  unfold quantize_step at h
  obtain ⟨u, -, rfl⟩ := List.mem_map.mp h
  by_cases hu : (127 : ℚ) < u
  · right
    rw [if_pos hu]
  · left
    rw [if_neg hu]

lemma iterate_transition_mem (T w h k : ℕ) (p0 : Pixels) (hk : 1 ≤ k) :
    ∀ v ∈ (dialate_transition T w h)^[k] p0, v = 0 ∨ v = 255 := by
  obtain ⟨m, rfl⟩ : ∃ m, k = m + 1 := ⟨k - 1, by omega⟩
  rw [Function.iterate_succ_apply' (dialate_transition T w h) m p0]
  intro v hv
  exact quantize_step_mem _ v hv

lemma toByte_zero : toByte 0 = 0 := rfl

lemma toByte_255 : toByte 255 = 255 := rfl

end morph

/-- C5: the morphological post-processor widens the mask to float and
performs exactly `DENOISE_COUNT = 8` transitions, each a convolution pass
with the zero-aware `dialate_operator` followed by re-quantization at split
point 127; after every transition (and in the final byte buffer) every
sample is exactly 0 or exactly 255. -/
theorem dialate_binary_invariant (T w h : ℕ) (input : List ℕ) :
    DENOISE_COUNT = 8 ∧
    dialate T input w h =
      ((dialate_transition T w h)^[DENOISE_COUNT]
        (input.map (fun b => (b : ℚ)))).map toByte ∧
    (∀ k, 1 ≤ k →
      ∀ v ∈ (dialate_transition T w h)^[k] (input.map (fun b => (b : ℚ))),
        v = 0 ∨ v = 255) ∧
    (∀ v ∈ dialate T input w h, v = 0 ∨ v = 255) := by
  refine ⟨rfl, rfl, fun k hk => morph.iterate_transition_mem T w h k _ hk, ?_⟩
  intro v hv
  unfold dialate at hv
  obtain ⟨u, hu, rfl⟩ := List.mem_map.mp hv
  rcases morph.iterate_transition_mem T w h DENOISE_COUNT
      (input.map (fun b => (b : ℚ))) (by decide) u hu with h0 | h255
  · left
    rw [h0]
    exact morph.toByte_zero
  · right
    rw [h255]
    exact morph.toByte_255

/-- Witness for C5: the all-background 1x1 mask stays two-valued; its final
sample 0 is one of the sentinels. -/
theorem dialate_binary_invariant_witness :
    (0 : ℕ) ∈ dialate 1 [0] 1 1 ∧ ((0 : ℕ) = 0 ∨ (0 : ℕ) = 255) :=
  ⟨by decide, (dialate_binary_invariant 1 1 1 [0]).2.2.2 0 (by decide)⟩

namespace operators

lemma getD_replicate_idx {w h : ℕ} (v : ℚ) (a b : ℕ) (ha : a < h) (hb : b < w) :
    (List.replicate (w * h) v).getD (a * w + b) 0 = v :=
  getD_replicate_of_lt _ _ _ (index_lt ha hb)

lemma nested_loop_sum (inp : List ℚ) (w sx ex sy ey : ℕ) :
    ((List.range (ey + 1 - sy)).map (fun j =>
      ((List.range (ex + 1 - sx)).map (fun i =>
        inp.getD ((sy + j) * w + (sx + i)) 0)).sum)).sum =
    ∑ dy ∈ Finset.Icc sy ey, ∑ dx ∈ Finset.Icc sx ex,
      inp.getD (dy * w + dx) 0 := by
  have step : ∀ j : ℕ, ((List.range (ex + 1 - sx)).map (fun i =>
      inp.getD ((sy + j) * w + (sx + i)) 0)).sum =
      ∑ dx ∈ Finset.Icc sx ex, inp.getD ((sy + j) * w + dx) 0 :=
    fun j => sum_map_range_Icc sx ex (fun dx => inp.getD ((sy + j) * w + dx) 0)
  have h1 : (List.range (ey + 1 - sy)).map (fun j =>
      ((List.range (ex + 1 - sx)).map (fun i =>
        inp.getD ((sy + j) * w + (sx + i)) 0)).sum) =
      (List.range (ey + 1 - sy)).map (fun j =>
        ∑ dx ∈ Finset.Icc sx ex, inp.getD ((sy + j) * w + dx) 0) :=
    List.map_congr_left (fun j _ => step j)
  rw [h1]
  exact sum_map_range_Icc sy ey
    (fun dy => ∑ dx ∈ Finset.Icc sx ex, inp.getD (dy * w + dx) 0)

end operators

/-- C6 counterexample: on the uniform 3x3 field of value 1 the Sobel
operator returns 6 (not 0) at the corner (0, 0): the clamped partial
window breaks the kernels' cancellation at the border. -/
theorem sobel_uniform_border_nonzero :
    sobel_operator (List.replicate 9 (1 : ℚ)) 0 0 3 3 = 6 ∧ (6 : ℚ) ≠ 0 := by
  constructor
  · norm_num [sobel_operator, SOBEL_X, SOBEL_Y,
      show List.replicate 9 (1 : ℚ) = [1, 1, 1, 1, 1, 1, 1, 1, 1] from rfl,
      List.range_succ, List.getD_cons_zero, List.getD_cons_succ]
  · norm_num

/-- C6 (amended): on every uniform field the Sobel operator returns 0 at
every interior coordinate, where the full 3x3 window fits
(`1 ≤ x`, `x + 2 ≤ width`, `1 ≤ y`, `y + 2 ≤ height`); at border and corner
coordinates the clamped window can yield a nonzero value. -/
theorem sobel_uniform_interior_zero (w h : ℕ) (v : ℚ) (x y : ℕ)
    (hx1 : 1 ≤ x) (hx2 : x + 2 ≤ w) (hy1 : 1 ≤ y) (hy2 : y + 2 ≤ h) :
    sobel_operator (List.replicate (w * h) v) x y w h = 0 := by
  have hex : min (x + 1) (w - 1) = x + 1 := by omega
  have hey : min (y + 1) (h - 1) = y + 1 := by omega
  have h3x : x + 1 + 1 - (x - 1) = 3 := by omega
  have h3y : y + 1 + 1 - (y - 1) = 3 := by omega
  have ey0 : y - 1 + 0 + 1 - y = 0 := by omega
  have ey1 : y - 1 + 1 + 1 - y = 1 := by omega
  have ey2 : y - 1 + 2 + 1 - y = 2 := by omega
  have ex0 : x - 1 + 0 + 1 - x = 0 := by omega
  have ex1 : x - 1 + 1 + 1 - x = 1 := by omega
  have ex2 : x - 1 + 2 + 1 - x = 2 := by omega
  simp only [sobel_operator, hex, hey, h3x, h3y,
    show List.range 3 = [0, 1, 2] from rfl,
    List.map_cons, List.map_nil, List.sum_cons, List.sum_nil]
  simp (disch := omega) only [operators.getD_replicate_idx]
  simp only [ey0, ey1, ey2, ex0, ex1, ex2, SOBEL_X, SOBEL_Y]
  have habs : ∀ a b : ℚ, a = 0 → b = 0 → |a| + |b| = 0 := by
    intro a b ha hb
    rw [ha, hb]
    simp
  apply habs <;> push_cast <;> ring

/-- Witness for C6's amended theorem at the center of a uniform 3x3 field. -/
theorem sobel_uniform_interior_zero_witness :
    1 ≤ 1 ∧ 1 + 2 ≤ 3 ∧
      sobel_operator (List.replicate (3 * 3) (7 : ℚ)) 1 1 3 3 = 0 :=
  ⟨by decide, by decide,
    sobel_uniform_interior_zero 3 3 7 1 1 (by decide) (by decide) (by decide)
      (by decide)⟩

/-- C7: the box blur is the arithmetic mean of the clamped square window of
radius `BLUR_RAD = 3`, divided by the actual (clamped) window area; the
window mean of any radius on a 1x1 field returns the single sample
unchanged, and so does `blur_operator` itself. -/
theorem blur_operator_is_clamped_window_mean :
    (∀ (inp : Pixels) (x y w h : ℕ),
      blur_operator inp x y w h = windowMean BLUR_RAD inp x y w h) ∧
    BLUR_RAD = 3 ∧
    (∀ (r : ℕ) (v : ℚ), windowMean r [v] 0 0 1 1 = v) ∧
    (∀ v : ℚ, blur_operator [v] 0 0 1 1 = v) := by
  have hmain : ∀ (inp : Pixels) (x y w h : ℕ),
      blur_operator inp x y w h = windowMean BLUR_RAD inp x y w h := by
    intro inp x y w h
    simp only [blur_operator, windowMean]
    rw [operators.nested_loop_sum]
  have h11 : ∀ (r : ℕ) (v : ℚ), windowMean r [v] 0 0 1 1 = v := by
    intro r v
    simp [windowMean]
  refine ⟨hmain, rfl, h11, ?_⟩
  intro v
  rw [hmain [v] 0 0 1 1]
  exact h11 BLUR_RAD v

/-- Witness for C7 on a concrete one-sample field and radius. -/
theorem blur_operator_is_clamped_window_mean_witness :
    windowMean 5 [(9 : ℚ)] 0 0 1 1 = 9 ∧ blur_operator [(9 : ℚ)] 0 0 1 1 = 9 :=
  ⟨blur_operator_is_clamped_window_mean.2.2.1 5 9,
    blur_operator_is_clamped_window_mean.2.2.2 9⟩

/-- C8: the zero-aware dilation returns 0 unconditionally when the center
sample is exactly 0, and otherwise returns the clamped-window average of
radius `DENOISE_RAD = 9` — the same averaging formula (`windowMean`) as the
box blur, at the denoise radius. -/
theorem dialate_operator_spec (inp : Pixels) (x y w h : ℕ) :
    DENOISE_RAD = 9 ∧
    (inp.getD (y * w + x) 0 = 0 → dialate_operator inp x y w h = 0) ∧
    (inp.getD (y * w + x) 0 ≠ 0 →
      dialate_operator inp x y w h = windowMean DENOISE_RAD inp x y w h) := by
  refine ⟨rfl, ?_, ?_⟩
  · intro h0
    unfold dialate_operator
    rw [if_pos h0]
  · intro h0
    simp only [dialate_operator, windowMean]
    rw [if_neg h0, operators.nested_loop_sum]

/-- Witness for C8 at a background and a foreground center. -/
theorem dialate_operator_spec_witness :
    dialate_operator [(0 : ℚ)] 0 0 1 1 = 0 ∧
    dialate_operator [(4 : ℚ)] 0 0 1 1 = windowMean DENOISE_RAD [(4 : ℚ)] 0 0 1 1 :=
  ⟨(dialate_operator_spec [(0 : ℚ)] 0 0 1 1).2.1 (by decide),
    (dialate_operator_spec [(4 : ℚ)] 0 0 1 1).2.2 (by decide)⟩

end ImageAnalysis
